import Mathlib

/-!
Shallow embedding of the spectral subset-matching engine of
tsachiblau/geometricComputerVisionProject, covering:
  - isMember.py                (Connectivity Index)
  - removeIndexFromVector.py   (candidate-list removal helper)
  - getSmallBody.py            (Greedy Region Grower)
  - findOptimalV.py            (Spectral Comparator loss and the
                                Inverse-Eigenvalue Optimizer loop)
Machine integers (np.int16) are modelled as Int with an explicit wrap at
2^16; float64 arithmetic is modelled over the reals; library calls
(np.random.randint, tf.linalg.eigvalsh, TF broadcasting) are modelled by
their documented semantics, as noted at each definition.
-/

/-- Model of the np.int16 cast: wrap an integer into [-32768, 32768). -/
def toInt16 (x : ℤ) : ℤ := (x + 32768) % 65536 - 32768

/-- isMember.py, isMember(A, B): both A and B are cast to int16; the result
has the shape of A and entry (i, j) accumulates, in int16 arithmetic, the
0/1 comparison outcomes of A16[i][j] against each element of B16.  Since
int16 wrap-around commutes with addition, the accumulated entry equals the
wrap of the exact match count. -/
def isMember (A : List (List ℤ)) (B : List ℤ) : List (List ℤ) :=
  A.map (fun row =>
    row.map (fun a => toInt16 (((B.map toInt16).count (toInt16 a) : ℕ) : ℤ)))

/-- removeIndexFromVector.py, removeIndexFromVector(vector, idx), translated
branch for branch: idx == 0 returns vector[1:]; idx == len(vector) - 1
returns vector[: len(vector)] (the slice written in the source, which is the
whole list); otherwise vector[: idx] + vector[idx + 1:]. -/
def removeIndexFromVector {α : Type} (vector : List α) (idx : ℕ) : List α :=
  if idx = 0 then
    vector.drop 1
  else if idx = vector.length - 1 then
    vector.take vector.length
  else
    vector.take idx ++ vector.drop (idx + 1)

/-- getSmallBody.py lines 30-34: max_val = np.max(relevant_idx) (np.max on an
empty array raises ValueError, modelled as the error case), then
np.where(relevant_idx == max_val)[0][0], the first position attaining the
maximum, modelled with findIdx. -/
def selectFirstMax (counts : List ℤ) : Except String ℕ :=
  match counts.max? with
  | none => Except.error "zero-size array reduction has no identity"
  | some m => Except.ok (counts.findIdx (fun c => c == m))

/-- Loop state of getSmallBody.py: list_of_all_polygons (remaining candidate
face indices), list_of_small_body (region face-index list) and
list_of_small_body_vertex (accumulated vertex ids, int16-cast, duplicates
kept). -/
structure GrowState where
  remaining : List ℕ
  body : List ℕ
  bodyVertex : List ℤ
deriving Repr, DecidableEq

/-- One iteration of the loop in getSmallBody.py lines 26-43: score the rows
polygons[remaining, :] against the accumulated vertex list with isMember,
sum each row (np.sum promotes int16 to the platform integer, so row sums
are exact), pick the first position attaining the maximal sum, append the
face index and its (int16-cast) vertices, and call removeIndexFromVector on
the selected position. -/
def growStep (polygons : List (List ℤ)) (s : GrowState) : Except String GrowState :=
  let table := s.remaining.map (fun i => polygons.getD i [])
  let counts := (isMember table s.bodyVertex).map List.sum
  match selectFirstMax counts with
  | Except.error e => Except.error e
  | Except.ok j =>
    let idx := s.remaining.getD j 0
    Except.ok
      { remaining := removeIndexFromVector s.remaining j
        body := s.body ++ [idx]
        bodyVertex := s.bodyVertex ++ (polygons.getD idx []).map toInt16 }

/-- The `for i in range(num_of_polygons_in_small_model)` loop of
getSmallBody.py, iterated k times. -/
def growLoop (polygons : List (List ℤ)) : ℕ → GrowState → Except String GrowState
  | 0, s => Except.ok s
  | k + 1, s =>
    match growStep polygons s with
    | Except.error e => Except.error e
    | Except.ok s1 => growLoop polygons k s1

/-- Model of np.random.randint(low, high) after np.random.seed(seed): the
draw is uniform over the half-open interval [low, high) and deterministic
given the seed; u stands for the raw value the seeded generator yields, so
the draw is low + u % (high - low).  NumPy raises ValueError when
low >= high. -/
def npRandint (low high u : ℕ) : Except String ℕ :=
  if low < high then Except.ok (low + u % (high - low)) else
    Except.error "ValueError: low is greater or equal to high"

/-- getSmallBody.py line 11: seed_polygon = np.random.randint(1,
num_of_polygons - 2), with u the seeded generator draw. -/
def seedDraw (numOfPolygons u : ℕ) : Except String ℕ :=
  npRandint 1 (numOfPolygons - 2) u

/-- getSmallBody.py lines 5-43 up to the final gather: pick the seed face,
remove it from the candidate list, initialise the region with the seed face
index and its int16-cast vertices, then run the growth loop. -/
def getSmallBodyState (polygons : List (List ℤ)) (target u : ℕ) :
    Except String GrowState :=
  match seedDraw polygons.length u with
  | Except.error e => Except.error e
  | Except.ok seedPolygon =>
    growLoop polygons target
      { remaining := removeIndexFromVector (List.range polygons.length) seedPolygon
        body := [seedPolygon]
        bodyVertex := (polygons.getD seedPolygon []).map toInt16 }

/-- The region face-index list (list_of_small_body) produced by
getSmallBody.py. -/
def getSmallBodyIdx (polygons : List (List ℤ)) (target u : ℕ) :
    Except String (List ℕ) :=
  (getSmallBodyState polygons target u).map GrowState.body

/-- getSmallBody.py line 46-48: the returned rows
polygons[list_of_small_body, :]. -/
def getSmallBody (polygons : List (List ℤ)) (target u : ℕ) :
    Except String (List (List ℤ)) :=
  (getSmallBodyState polygons target u).map
    (fun s => s.body.map (fun i => polygons.getD i []))

/-- The `for i in range(num_of_iter)` loop of findOptimalV.py lines 82-109:
run the body on iterations i, i+1, ...; an Except.ok result feeds the next
iteration, while an Except.error (a raised exception) hits the bare except
clause, which breaks out of the loop; the current v is then returned, so no
exception ever escapes (the return type is V, not Except). -/
def optLoop {V E : Type} (body : ℕ → V → Except E V) : ℕ → ℕ → V → V
  | _, 0, v => v
  | i, k + 1, v =>
    match body i v with
    | Except.ok v1 => optLoop body (i + 1) k v1
    | Except.error _ => v

/-- The v value reached after j successful iterations of a loop body
starting from v0 (the value kept when iteration j fails; vAfter body v0 0
is the initial v). -/
def vAfter {V E : Type} (body : ℕ → V → Except E V) (v0 : V) : ℕ → V
  | 0 => v0
  | j + 1 =>
    match body j (vAfter body v0 j) with
    | Except.ok v1 => v1
    | Except.error _ => vAfter body v0 j

/-- Body of one iteration of findOptimalV.py's loop as written in the
source: line 87 calls step(t_sparse_laplacian_X_W,
t_sparse_laplacian_X_A_half, t_v, t_eigen_values_y, tau, lr=lr), but the
name t_sparse_laplacian_X_A_half is bound nowhere in findOptimalV's scope
nor in the module (the local variable is named t_sparse_laplacian_X_A), so
Python raises NameError before loss or step runs. -/
def findOptimalVBody {V : Type} (_i : ℕ) (_v : V) : Except String V :=
  Except.error "NameError: name t_sparse_laplacian_X_A_half is not defined"

/-- findOptimalV.py lines 82-112: iterate the loop body num_of_iter times
starting from the initial v and return the final v (the plotting and
printing side effects do not touch v). -/
def findOptimalV {V : Type} (numOfIter : ℕ) (v : V) : V :=
  optLoop (fun i w => findOptimalVBody i w) 0 numOfIter v

/-- Shape errors of the TensorFlow tensor operations used by the loss. -/
inductive TFError : Type
  | shapeMismatch : TFError
deriving Repr, DecidableEq

/-- TensorFlow elementwise binary operation on rank-1 tensors with NumPy
broadcasting: equal lengths combine elementwise, a length-1 operand is
broadcast against the other, and any other length combination raises an
InvalidArgumentError (modelled as TFError.shapeMismatch). -/
def tfBroadcast2 {α : Type} [Inhabited α] (f : α → α → α) (a b : List α) :
    Except TFError (List α) :=
  if a.length = b.length then Except.ok (List.zipWith f a b)
  else if a.length = 1 then Except.ok (b.map (fun y => f a.headI y))
  else if b.length = 1 then Except.ok (a.map (fun x => f x b.headI))
  else Except.error TFError.shapeMismatch

/-- tf.tensordot(x, y, axes=1) on rank-1 tensors: the contracted dimensions
must agree, and the result is the sum of the elementwise products. -/
noncomputable def tfDot (a b : List ℝ) : Except TFError ℝ :=
  if a.length = b.length then Except.ok (List.zipWith (fun x y => x * y) a b).sum
  else Except.error TFError.shapeMismatch

/-- findOptimalV.py lines 9-20: the perturbed operator
A_half * W * A_half + diag((tanh(v) + 1) * tau) built by loss(). -/
noncomputable def perturbedM {n : ℕ} (W Ahalf : Matrix (Fin n) (Fin n) ℝ)
    (v : Fin n → ℝ) (τ : ℝ) : Matrix (Fin n) (Fin n) ℝ :=
  Ahalf * W * Ahalf + Matrix.diagonal (fun i => (Real.tanh (v i) + 1) * τ)

/-- findOptimalV.py lines 7-36, loss(...): build the perturbed operator,
take its eigenvalues with tf.linalg.eigvalsh (a library call, passed in as
the parameter eigvalsh; its contract is to return the full ascending
eigenvalue sequence), slice the first len(y) of them (TF slicing clamps to
the tensor length), form the normalized residual (lambda - y) * (1 / y)
with broadcasting, and return its dot product with itself. -/
noncomputable def loss {n : ℕ}
    (eigvalsh : Matrix (Fin n) (Fin n) ℝ → List ℝ)
    (W Ahalf : Matrix (Fin n) (Fin n) ℝ) (v : Fin n → ℝ) (y : List ℝ)
    (τ : ℝ) : Except TFError ℝ :=
  let lam := eigvalsh (perturbedM W Ahalf v τ)
  let cut := lam.take y.length
  let yinv := y.map (fun t => 1 / t)
  match tfBroadcast2 (fun a b => a - b) cut y with
  | Except.error e => Except.error e
  | Except.ok sub =>
    match tfBroadcast2 (fun a b => a * b) sub yinv with
    | Except.error e => Except.error e
    | Except.ok normalize => tfDot normalize normalize

/-- C10 counterexample: the claim states that idx = length - 1 returns the
list unchanged, but on the singleton list [5] with idx = 0 (which is
length - 1) the idx = 0 branch fires first and the element is removed. -/
theorem removeIndexFromVector_singleton_cex :
    removeIndexFromVector [(5 : ℤ)] 0 = [] ∧ ([] : List ℤ) ≠ [(5 : ℤ)] := by
  exact ⟨rfl, by decide⟩

/-- Case analysis of removeIndexFromVector for an in-range index. -/
theorem removeIndexFromVector_cases {α : Type} (v : List α) (idx : ℕ)
    (hidx : idx < v.length) :
    (idx = 0 → removeIndexFromVector v idx = v.drop 1 ∧
      (removeIndexFromVector v idx).length = v.length - 1)
    ∧ (0 < idx → idx = v.length - 1 → removeIndexFromVector v idx = v)
    ∧ (0 < idx → idx < v.length - 1 →
        removeIndexFromVector v idx = v.take idx ++ v.drop (idx + 1) ∧
        (removeIndexFromVector v idx).length = v.length - 1) := by
  refine ⟨?_, ?_, ?_⟩
  · intro h
    subst h
    simp [removeIndexFromVector]
  · intro h1 h2
    unfold removeIndexFromVector
    rw [if_neg (by omega), if_pos h2, List.take_length]
  · intro h1 h2
    unfold removeIndexFromVector
    rw [if_neg (by omega), if_neg (by omega)]
    refine ⟨rfl, ?_⟩
    simp only [List.length_append, List.length_take, List.length_drop]
    omega

/-- C10 (amended): for idx = 0 the head is removed, even on a singleton
(the idx = 0 branch takes precedence over the last-position branch); for
0 < idx = length - 1 the list is returned unchanged; for
0 < idx < length - 1 exactly the element at position idx is removed. -/
theorem removeIndexFromVector_spec {α : Type} (v : List α) (idx : ℕ)
    (hidx : idx < v.length) :
    (idx = 0 → removeIndexFromVector v idx = v.drop 1 ∧
      (removeIndexFromVector v idx).length = v.length - 1)
    ∧ (0 < idx → idx = v.length - 1 → removeIndexFromVector v idx = v)
    ∧ (0 < idx → idx < v.length - 1 →
        removeIndexFromVector v idx = v.take idx ++ v.drop (idx + 1) ∧
        (removeIndexFromVector v idx).length = v.length - 1) :=
  removeIndexFromVector_cases v idx hidx

/-- Witness for removeIndexFromVector_spec at v = [1, 2, 3], idx = 2: the
index is in range and equals length - 1, so the list is returned
unchanged. -/
theorem removeIndexFromVector_spec_w :
    (2 : ℕ) < ([(1 : ℤ), 2, 3]).length ∧
      removeIndexFromVector [(1 : ℤ), 2, 3] 2 = [(1 : ℤ), 2, 3] :=
  ⟨by decide,
    ((removeIndexFromVector_spec [(1 : ℤ), 2, 3] 2 (by decide)).2.1)
      (by decide) (by decide)⟩

/-- C9 counterexample: with total_faces = 4 the claim says every index in
[1, 2] can be drawn, but np.random.randint(1, 2) only ever returns 1, so
the index 2 is never drawn for any generator draw u. -/
theorem seedDraw_cex : ¬ ∃ u, seedDraw 4 u = Except.ok 2 := by
  rintro ⟨u, h⟩
  simp [seedDraw, npRandint, Nat.mod_one] at h

/-- C9 (amended): for total_faces = n >= 4 the seed face index is drawn
from the half-open randint interval [1, n - 2), that is from 1 to n - 3
inclusive: every draw lands in that range, every index of that range is
reachable for some generator draw, and the draw is a deterministic function
of the seeded generator value. -/
theorem seedDraw_spec (n : ℕ) (h : 4 ≤ n) :
    (∀ u, ∃ x, seedDraw n u = Except.ok x ∧ 1 ≤ x ∧ x ≤ n - 3)
    ∧ (∀ x, 1 ≤ x → x ≤ n - 3 → ∃ u, seedDraw n u = Except.ok x)
    ∧ (∀ u1 u2, u1 = u2 → seedDraw n u1 = seedDraw n u2) := by
  have hlt : 1 < n - 2 := by omega
  have hm : n - 2 - 1 = n - 3 := by omega
  have hpos : 0 < n - 3 := by omega
  refine ⟨?_, ?_, ?_⟩
  · intro u
    have hmod : u % (n - 3) < n - 3 := Nat.mod_lt u hpos
    refine ⟨1 + u % (n - 3), ?_, by omega, by omega⟩
    simp [seedDraw, npRandint, if_pos hlt, hm]
  · intro x h1 h2
    refine ⟨x - 1, ?_⟩
    have hmod : (x - 1) % (n - 3) = x - 1 := Nat.mod_eq_of_lt (by omega)
    simp [seedDraw, npRandint, if_pos hlt, hm, hmod]
    omega
  · intro u1 u2 h
    rw [h]

/-- Witness for seedDraw_spec at n = 4: the index 1 is reachable. -/
theorem seedDraw_spec_w : (4 : ℕ) ≤ 4 ∧ ∃ u, seedDraw 4 u = Except.ok 1 :=
  ⟨by decide, (seedDraw_spec 4 (by decide)).2.1 1 (by decide) (by decide)⟩

/-- C2 (code bug): because the loop body of findOptimalV raises NameError
on every iteration (the call at line 87 uses the unbound name
t_sparse_laplacian_X_A_half), the bare except clause breaks out of the loop
on the very first iteration and the initial v is returned unchanged for any
iteration budget — no gradient step is ever performed. -/
theorem findOptimalV_returns_initial_v (numOfIter : ℕ) (v : List ℝ) :
    findOptimalV numOfIter v = v := by
  cases numOfIter with
  | zero => rfl
  | succ k => rfl

/-- C5 (code bug evaluation): on the 5-face list below with
target_face_count = 2 and generator draw 0, the grower selects the
candidate at the last position of the remaining list in iteration 1;
removeIndexFromVector leaves the last position in place, so the same face
(index 4) is selected again in iteration 2 and the returned region
face-index list [1, 4, 4] contains a duplicate. -/
theorem getSmallBody_duplicate_region :
    getSmallBodyIdx [[20, 21, 22], [10, 11, 12], [20, 21, 23], [20, 22, 24],
        [10, 11, 13]] 2 0 = Except.ok [1, 4, 4]
      ∧ ¬ ([1, 4, 4] : List ℕ).Nodup := by
  exact ⟨rfl, by decide⟩

/-- C7: at each iteration the grower selects, via selectFirstMax, the first
position (in current remaining-list order) whose membership count attains
the maximum of all remaining counts; every count is at most the maximum,
all strictly earlier positions have strictly smaller counts, and when the
maximum is 0 (all counts being nonnegative membership counts) the first
remaining candidate, position 0, is selected. -/
theorem selectFirstMax_spec (counts : List ℤ) (m : ℤ)
    (hm : counts.max? = some m) :
    ∃ j, selectFirstMax counts = Except.ok j ∧ j < counts.length ∧
      counts.getD j 0 = m ∧ (∀ c ∈ counts, c ≤ m) ∧
      (∀ i, i < j → counts.getD i 0 < m) ∧
      ((∀ c ∈ counts, 0 ≤ c) → m = 0 → j = 0) := by
  have hmem : m ∈ counts := List.max?_mem max_choice hm
  have hle : ∀ c ∈ counts, c ≤ m :=
    (List.max?_le_iff (fun a b c => max_le_iff) hm).1 le_rfl
  have hex : ∃ c ∈ counts, (c == m) = true := ⟨m, hmem, beq_self_eq_true m⟩
  have hjlt : counts.findIdx (fun c => c == m) < counts.length :=
    List.findIdx_lt_length_of_exists hex
  refine ⟨counts.findIdx (fun c => c == m), ?_, hjlt, ?_, hle, ?_, ?_⟩
  · simp [selectFirstMax, hm]
  · have hget : (counts.get ⟨counts.findIdx (fun c => c == m), hjlt⟩ == m) = true :=
      List.findIdx_getElem (w := hjlt)
    rw [List.getD_eq_getElem?_getD, List.getElem?_eq_getElem hjlt]
    simpa [Option.getD_some] using eq_of_beq hget
  · intro i hi
    have hilt : i < counts.length := Nat.lt_trans hi hjlt
    have hne : ((fun c => c == m) (counts.get ⟨i, hilt⟩)) = false :=
      List.not_of_lt_findIdx hi
    have hne2 : counts.get ⟨i, hilt⟩ ≠ m := by
      intro hcontra
      rw [hcontra] at hne
      simp at hne
    have hle2 : counts.get ⟨i, hilt⟩ ≤ m := hle _ (List.getElem_mem hilt)
    rw [List.getD_eq_getElem?_getD, List.getElem?_eq_getElem hilt]
    exact lt_of_le_of_ne hle2 hne2
  · intro hnn hm0
    subst hm0
    cases counts with
    | nil => simp at hmem
    | cons c0 rest =>
      have h0le : c0 ≤ 0 := hle c0 (List.mem_cons_self c0 rest)
      have h0ge : 0 ≤ c0 := hnn c0 (List.mem_cons_self c0 rest)
      have h0 : c0 = 0 := le_antisymm h0le h0ge
      rw [List.findIdx_cons]
      simp [h0]

/-- Witness for selectFirstMax_spec at counts = [0, 2, 1]: the maximum 2 is
attained first at position 1. -/
theorem selectFirstMax_spec_w :
    ([0, 2, 1] : List ℤ).max? = some 2 ∧
      ∃ j, selectFirstMax [0, 2, 1] = Except.ok j ∧ j < ([0, 2, 1] : List ℤ).length ∧
        ([0, 2, 1] : List ℤ).getD j 0 = 2 ∧ (∀ c ∈ ([0, 2, 1] : List ℤ), c ≤ 2) ∧
        (∀ i, i < j → ([0, 2, 1] : List ℤ).getD i 0 < 2) ∧
        ((∀ c ∈ ([0, 2, 1] : List ℤ), 0 ≤ c) → (2 : ℤ) = 0 → j = 0) :=
  ⟨by decide, selectFirstMax_spec [0, 2, 1] 2 (by decide)⟩

/-- removeIndexFromVector never grows the list and removes at most one
element: the result length is between length - 1 and length. -/
theorem removeIndexFromVector_length_bounds {α : Type} (v : List α) (idx : ℕ) :
    v.length - 1 ≤ (removeIndexFromVector v idx).length ∧
      (removeIndexFromVector v idx).length ≤ v.length := by
  unfold removeIndexFromVector
  split
  · simp
  · split
    · rw [List.take_length]
      omega
    · simp only [List.length_append, List.length_take, List.length_drop]
      omega

/-- When the remaining candidate list is nonempty, growStep succeeds and
appends exactly one face index to the region, shrinking the remaining list
by at most one. -/
theorem growStep_ok (p : List (List ℤ)) (s : GrowState)
    (hne : s.remaining ≠ []) :
    ∃ s1, growStep p s = Except.ok s1 ∧
      s1.body.length = s.body.length + 1 ∧ s.body <+: s1.body ∧
      s.remaining.length - 1 ≤ s1.remaining.length := by
  have hclen :
      ((isMember (s.remaining.map (fun i => p.getD i [])) s.bodyVertex).map
        List.sum).length = s.remaining.length := by
    simp [isMember]
  cases hmax :
      ((isMember (s.remaining.map (fun i => p.getD i [])) s.bodyVertex).map
        List.sum).max? with
  | none =>
    rw [List.max?_eq_none_iff] at hmax
    rw [hmax] at hclen
    simp only [List.length_nil] at hclen
    exact absurd (List.length_eq_zero.mp hclen.symm) hne
  | some m =>
    simp only [growStep, selectFirstMax, hmax]
    refine ⟨_, rfl, ?_, ?_, ?_⟩
    · simp
    · exact List.prefix_append _ _
    · exact (removeIndexFromVector_length_bounds s.remaining _).1

/-- Running the growth loop for k iterations succeeds as long as the
remaining list starts with at least k candidates (each iteration removes at
most one), the region is append-only, and exactly one face index is
appended per iteration. -/
theorem growLoop_ok (p : List (List ℤ)) (k : ℕ) :
    ∀ s : GrowState, k ≤ s.remaining.length →
      ∃ s1, growLoop p k s = Except.ok s1 ∧
        s1.body.length = s.body.length + k ∧ s.body <+: s1.body := by
  induction k with
  | zero =>
    intro s _
    exact ⟨s, rfl, by simp, List.prefix_rfl⟩
  | succ k ih =>
    intro s hk
    have hne : s.remaining ≠ [] := by
      intro h
      rw [h] at hk
      simp at hk
    obtain ⟨s1, hstep, hbl, hpre, hrem⟩ := growStep_ok p s hne
    obtain ⟨s2, hloop, hbl2, hpre2⟩ := ih s1 (by omega)
    refine ⟨s2, ?_, by omega, hpre.trans hpre2⟩
    simp only [growLoop, hstep, hloop]

/-- C4: for every face list and every positive target face count strictly
below total_faces - 2, getSmallBody succeeds and returns exactly
target + 1 face rows, and the result is a deterministic function of the
(seeded) generator draw and the face list. -/
theorem getSmallBody_count_and_determinism (polygons : List (List ℤ))
    (t u : ℕ) (h1 : 1 ≤ t) (h2 : t + 2 < polygons.length) :
    (∃ rows, getSmallBody polygons t u = Except.ok rows ∧
      rows.length = t + 1)
    ∧ (∀ u2, u2 = u → getSmallBody polygons t u2 = getSmallBody polygons t u) := by
  have hlt : 1 < polygons.length - 2 := by omega
  have hm : polygons.length - 2 - 1 = polygons.length - 3 := by omega
  have hpos : 0 < polygons.length - 3 := by omega
  have hmod : u % (polygons.length - 3) < polygons.length - 3 :=
    Nat.mod_lt u hpos
  have hdraw : seedDraw polygons.length u =
      Except.ok (1 + u % (polygons.length - 3)) := by
    simp [seedDraw, npRandint, if_pos hlt, hm]
  have hrangelen : (List.range polygons.length).length = polygons.length :=
    List.length_range polygons.length
  obtain ⟨-, hremlen⟩ :=
    (removeIndexFromVector_cases (List.range polygons.length)
        (1 + u % (polygons.length - 3)) (by omega)).2.2 (by omega) (by omega)
  obtain ⟨s1, hloop, hblen, hpre⟩ := growLoop_ok polygons t
    { remaining := removeIndexFromVector (List.range polygons.length)
        (1 + u % (polygons.length - 3))
      body := [1 + u % (polygons.length - 3)]
      bodyVertex := (polygons.getD (1 + u % (polygons.length - 3)) []).map
        toInt16 }
    (by simp only [hremlen, hrangelen]; omega)
  have hstate : getSmallBodyState polygons t u = Except.ok s1 := by
    simp only [getSmallBodyState, hdraw, hloop]
  constructor
  · refine ⟨s1.body.map (fun i => polygons.getD i []), ?_, ?_⟩
    · unfold getSmallBody
      rw [hstate]
      rfl
    · simp only [List.length_map, hblen, List.length_cons, List.length_nil]
      omega
  · intro u2 hu
    rw [hu]

/-- Witness for getSmallBody_count_and_determinism on a tetrahedron face
list with target 1: two rows are returned. -/
theorem getSmallBody_count_w :
    (1 : ℕ) ≤ 1 ∧
      1 + 2 < ([[0, 1, 2], [0, 1, 3], [1, 2, 3], [0, 2, 3]] :
        List (List ℤ)).length ∧
      ∃ rows, getSmallBody [[0, 1, 2], [0, 1, 3], [1, 2, 3], [0, 2, 3]] 1 0 =
          Except.ok rows ∧ rows.length = 1 + 1 :=
  ⟨le_rfl, by decide,
    (getSmallBody_count_and_determinism
      [[0, 1, 2], [0, 1, 3], [1, 2, 3], [0, 2, 3]] 1 0 le_rfl (by decide)).1⟩

/-- Shifting the starting index of optLoop into the loop body. -/
theorem optLoop_shift {V E : Type} (body : ℕ → V → Except E V) (k : ℕ) :
    ∀ (i : ℕ) (v : V),
      optLoop body (i + 1) k v = optLoop (fun m w => body (m + 1) w) i k v := by
  induction k with
  | zero => intro i v; rfl
  | succ k ih =>
    intro i v
    simp only [optLoop]
    cases body (i + 1) v with
    | ok v1 => exact ih (i + 1) v1
    | error e => rfl

/-- The value after m successful iterations of the shifted body equals the
value after m + 1 iterations of the original body, provided iteration 0
succeeded. -/
theorem vAfter_shift {V E : Type} (body : ℕ → V → Except E V) (v0 v1 : V)
    (h0 : body 0 v0 = Except.ok v1) (m : ℕ) :
    vAfter (fun i w => body (i + 1) w) v1 m = vAfter body v0 (m + 1) := by
  induction m with
  | zero => simp [vAfter, h0]
  | succ m ih =>
    have hL : vAfter (fun i w => body (i + 1) w) v1 (m + 1) =
        match body (m + 1) (vAfter (fun i w => body (i + 1) w) v1 m) with
        | Except.ok w => w
        | Except.error _ => vAfter (fun i w => body (i + 1) w) v1 m := rfl
    have hR : vAfter body v0 (m + 1 + 1) =
        match body (m + 1) (vAfter body v0 (m + 1)) with
        | Except.ok w => w
        | Except.error _ => vAfter body v0 (m + 1) := rfl
    rw [hL, hR, ih]

/-- C3: if all loop-body iterations before j succeed and iteration j < n
raises, the optimizer loop stops there and returns the v produced by the
last successful iteration (the initial v when j = 0); no exception is
propagated, as optLoop is total with plain return type V.  This is the
findOptimalV loop (lines 82-112) with the TF step call abstracted as
body. -/
theorem findOptimalV_abort_behavior {V E : Type} (body : ℕ → V → Except E V)
    (n : ℕ) (v0 : V) (j : ℕ) (e : E) (hjn : j < n)
    (hok : ∀ m, m < j → ∃ v1, body m (vAfter body v0 m) = Except.ok v1)
    (herr : body j (vAfter body v0 j) = Except.error e) :
    optLoop body 0 n v0 = vAfter body v0 j := by
  induction j generalizing body n v0 with
  | zero =>
    cases n with
    | zero => omega
    | succ k =>
      simp only [vAfter] at herr
      simp only [optLoop, herr, vAfter]
  | succ j ih =>
    obtain ⟨v1, h0⟩ := hok 0 (Nat.succ_pos j)
    simp only [vAfter] at h0
    cases n with
    | zero => omega
    | succ k =>
      have hres : optLoop body 0 (k + 1) v0 = optLoop body 1 k v1 := by
        simp only [optLoop, h0]
      rw [hres, show (1 : ℕ) = 0 + 1 from rfl, optLoop_shift]
      rw [← vAfter_shift body v0 v1 h0 j]
      apply ih
      · omega
      · intro m hm
        obtain ⟨v2, h2⟩ := hok (m + 1) (by omega)
        exact ⟨v2, by rw [vAfter_shift body v0 v1 h0 m]; exact h2⟩
      · rw [vAfter_shift body v0 v1 h0 j]
        exact herr

/-- A demonstration loop body that succeeds at iteration 0 and raises at
every later iteration. -/
def demoBody : ℕ → ℤ → Except String ℤ :=
  fun i v => if i = 0 then Except.ok (v + 1) else Except.error "boom"

/-- Witness for findOptimalV_abort_behavior: with a budget of 2, a body
succeeding once and then raising returns the v of iteration 0. -/
theorem findOptimalV_abort_behavior_w :
    (1 : ℕ) < 2 ∧ optLoop demoBody 0 2 0 = vAfter demoBody 0 1 :=
  ⟨by decide,
    findOptimalV_abort_behavior demoBody 2 0 1 "boom" (by decide)
      (fun m hm => by
        cases m with
        | zero => exact ⟨1, rfl⟩
        | succ mm => omega)
      rfl⟩

/-- The int16 wrap is the identity on values already in
[-32768, 32768). -/
theorem toInt16_eq_self {x : ℤ} (h1 : -32768 ≤ x) (h2 : x < 32768) :
    toInt16 x = x := by
  unfold toInt16
  have h3 : (x + 32768) % 65536 = x + 32768 :=
    Int.emod_eq_of_lt (by omega) (by omega)
  omega

/-- C6 counterexample: B = [1, 1, 2, 3] contains all three vertices of the
face row [1, 2, 3], yet the three column counts sum to 4, not 3, because
vertex 1 appears twice in B. -/
theorem isMember_sum_cex :
    (∀ x ∈ ([1, 2, 3] : List ℤ), x ∈ ([1, 1, 2, 3] : List ℤ)) ∧
      (isMember [[1, 2, 3]] [1, 1, 2, 3]).headI.sum ≠ 3 := by
  decide

/-- C6 (amended): when the entries of A and B are in the signed 16-bit
range and B has at most 32767 elements (so no int16 accumulator overflow),
isMember returns a matrix of the same shape as A whose (i, j) entry is
exactly the number of elements of B equal to A[i][j]; and for a face row
whose every vertex appears exactly once in B, the three column counts sum
to 3. -/
theorem isMember_spec (A : List (List ℤ)) (B : List ℤ)
    (hA : ∀ row ∈ A, ∀ a ∈ row, -32768 ≤ a ∧ a < 32768)
    (hB : ∀ b ∈ B, -32768 ≤ b ∧ b < 32768)
    (hBlen : B.length ≤ 32767) :
    isMember A B = A.map (fun row => row.map (fun a => ((B.count a : ℕ) : ℤ)))
    ∧ (isMember A B).length = A.length
    ∧ ∀ row ∈ A, row.length = 3 → (∀ x ∈ row, B.count x = 1) →
        ∃ row1, row1 ∈ isMember A B ∧ row1.sum = 3 := by
  have hBmap : B.map toInt16 = B := by
    have h := List.map_congr_left
      (fun b hb => toInt16_eq_self (hB b hb).1 (hB b hb).2)
    simpa using h
  have hmain : isMember A B =
      A.map (fun row => row.map (fun a => ((B.count a : ℕ) : ℤ))) := by
    unfold isMember
    apply List.map_congr_left
    intro row hrow
    apply List.map_congr_left
    intro a ha
    rw [toInt16_eq_self (hA row hrow a ha).1 (hA row hrow a ha).2, hBmap]
    have hc : B.count a ≤ B.length := List.count_le_length a B
    have hcz : ((B.count a : ℕ) : ℤ) ≤ (B.length : ℤ) := by exact_mod_cast hc
    have hblz : ((B.length : ℕ) : ℤ) ≤ 32767 := by exact_mod_cast hBlen
    exact toInt16_eq_self (by omega) (by omega)
  refine ⟨hmain, by simp [isMember], ?_⟩
  intro row hrow hlen3 hcount1
  refine ⟨row.map (fun a => ((B.count a : ℕ) : ℤ)), ?_, ?_⟩
  · rw [hmain]
    exact List.mem_map_of_mem _ hrow
  · have hone : row.map (fun a => ((B.count a : ℕ) : ℤ)) =
        row.map (fun _ => (1 : ℤ)) :=
      List.map_congr_left (fun x hx => by rw [hcount1 x hx]; norm_num)
    rw [hone, List.map_const', List.sum_replicate, hlen3]
    simp

/-- Witness for isMember_spec: on A = [[1, 2, 3]] and B = [1, 2, 3] the
membership matrix is the exact count matrix [[1, 1, 1]]. -/
theorem isMember_spec_w :
    isMember [[1, 2, 3]] [1, 2, 3] = [[1, 1, 1]] := by
  have h := (isMember_spec [[1, 2, 3]] [1, 2, 3] (by decide) (by decide)
    (by decide)).1
  rw [h]
  decide

/-- getD of a zipWith at an in-range index combines the two entries. -/
theorem getD_zipWith (f : ℝ → ℝ → ℝ) (a b : List ℝ) (i : ℕ)
    (ha : i < a.length) (hb : i < b.length) :
    (List.zipWith f a b).getD i 0 = f (a.getD i 0) (b.getD i 0) := by
  simp only [List.getD_eq_getElem?_getD, List.getElem?_zipWith,
    List.getElem?_eq_getElem ha, List.getElem?_eq_getElem hb]
  rfl

/-- getD of a take at an index below the cut agrees with the original
list. -/
theorem getD_take (l : List ℝ) (n i : ℕ) (h : i < n) :
    (l.take n).getD i 0 = l.getD i 0 := by
  simp only [List.getD_eq_getElem?_getD, List.getElem?_take, if_pos h]

/-- getD of the elementwise reciprocal at an in-range index. -/
theorem getD_map_inv (y : List ℝ) (i : ℕ) (hi : i < y.length) :
    (y.map (fun t => 1 / t)).getD i 0 = 1 / y.getD i 0 := by
  simp only [List.getD_eq_getElem?_getD, List.getElem?_map,
    List.getElem?_eq_getElem hi]
  rfl

/-- The sum of an elementwise combination of two equal-length lists as a
finite sum over positions. -/
theorem zipWith_sum_eq (f : ℝ → ℝ → ℝ) (xs : List ℝ) :
    ∀ ys : List ℝ, xs.length = ys.length →
      (List.zipWith f xs ys).sum =
        ∑ i ∈ Finset.range xs.length, f (xs.getD i 0) (ys.getD i 0) := by
  induction xs with
  | nil =>
    intro ys h
    simp
  | cons x xs ih =>
    intro ys h
    cases ys with
    | nil => simp at h
    | cons y ys =>
      simp only [List.zipWith_cons_cons, List.sum_cons, List.length_cons]
      rw [Finset.sum_range_succ']
      simp only [List.getD_cons_succ, List.getD_cons_zero]
      rw [ih ys (by simpa using h)]
      exact add_comm _ _

/-- In the shape-correct case (len(y) at most the operator dimension and
eigvalsh returning the full spectrum) the loss computes the dot product of
the normalized residual with itself, with no broadcasting and no error. -/
theorem loss_eq_ok {n : ℕ} (eigvalsh : Matrix (Fin n) (Fin n) ℝ → List ℝ)
    (W Ahalf : Matrix (Fin n) (Fin n) ℝ) (v : Fin n → ℝ) (y : List ℝ)
    (τ : ℝ) (hlen : (eigvalsh (perturbedM W Ahalf v τ)).length = n)
    (hk : y.length ≤ n) :
    loss eigvalsh W Ahalf v y τ =
      Except.ok ((List.zipWith (fun p q => p * q)
        (List.zipWith (fun a b => a * b)
          (List.zipWith (fun a b => a - b)
            ((eigvalsh (perturbedM W Ahalf v τ)).take y.length) y)
          (y.map fun t => 1 / t))
        (List.zipWith (fun a b => a * b)
          (List.zipWith (fun a b => a - b)
            ((eigvalsh (perturbedM W Ahalf v τ)).take y.length) y)
          (y.map fun t => 1 / t))).sum) := by
  have hcutlen :
      ((eigvalsh (perturbedM W Ahalf v τ)).take y.length).length = y.length := by
    rw [List.length_take, hlen]
    exact Nat.min_eq_left hk
  have hsublen : (List.zipWith (fun a b => a - b)
      ((eigvalsh (perturbedM W Ahalf v τ)).take y.length) y).length =
      (y.map fun t => 1 / t).length := by
    rw [List.length_zipWith, hcutlen, List.length_map]
    simp
  have e1 : tfBroadcast2 (fun a b => a - b)
      ((eigvalsh (perturbedM W Ahalf v τ)).take y.length) y =
      Except.ok (List.zipWith (fun a b => a - b)
        ((eigvalsh (perturbedM W Ahalf v τ)).take y.length) y) := by
    unfold tfBroadcast2
    rw [if_pos hcutlen]
  have e2 : tfBroadcast2 (fun a b => a * b)
      (List.zipWith (fun a b => a - b)
        ((eigvalsh (perturbedM W Ahalf v τ)).take y.length) y)
      (y.map fun t => 1 / t) =
      Except.ok (List.zipWith (fun a b => a * b)
        (List.zipWith (fun a b => a - b)
          ((eigvalsh (perturbedM W Ahalf v τ)).take y.length) y)
        (y.map fun t => 1 / t)) := by
    unfold tfBroadcast2
    rw [if_pos hsublen]
  simp only [loss, e1, e2, tfDot, if_pos rfl, if_true]

/-- C1: for a symmetric base operator A_half * W * A_half, matching-length
perturbation v, temperature τ, and a nonzero target spectrum y of length
k at most n, the Spectral Comparator loss is the sum over i < k of
((λ_i - y_i) / y_i)^2, where λ is the sequence returned by the symmetric
eigensolver (by its contract, the ascending eigenvalues of the perturbed
operator) truncated to its first k entries; in particular the loss is 0
when that truncated sequence equals y. -/
theorem loss_formula {n : ℕ} (eigvalsh : Matrix (Fin n) (Fin n) ℝ → List ℝ)
    (W Ahalf : Matrix (Fin n) (Fin n) ℝ) (v : Fin n → ℝ) (y : List ℝ)
    (τ : ℝ) (_hsym : (Ahalf * W * Ahalf).IsSymm)
    (hlen : (eigvalsh (perturbedM W Ahalf v τ)).length = n)
    (hk : y.length ≤ n) (_hy : ∀ t ∈ y, t ≠ 0) :
    loss eigvalsh W Ahalf v y τ =
      Except.ok (∑ i ∈ Finset.range y.length,
        (((eigvalsh (perturbedM W Ahalf v τ)).getD i 0 - y.getD i 0) /
          y.getD i 0) ^ 2)
    ∧ ((∀ i, i < y.length →
          (eigvalsh (perturbedM W Ahalf v τ)).getD i 0 = y.getD i 0) →
        loss eigvalsh W Ahalf v y τ = Except.ok 0) := by
  have hcutlen :
      ((eigvalsh (perturbedM W Ahalf v τ)).take y.length).length =
        y.length := by
    rw [List.length_take, hlen]
    exact Nat.min_eq_left hk
  have hsublen : (List.zipWith (fun a b => a - b)
      ((eigvalsh (perturbedM W Ahalf v τ)).take y.length) y).length =
      y.length := by
    rw [List.length_zipWith, hcutlen]
    simp
  have hSlen : (List.zipWith (fun a b => a * b)
      (List.zipWith (fun a b => a - b)
        ((eigvalsh (perturbedM W Ahalf v τ)).take y.length) y)
      (y.map fun t => 1 / t)).length = y.length := by
    rw [List.length_zipWith, hsublen, List.length_map]
    simp
  have hmain : loss eigvalsh W Ahalf v y τ =
      Except.ok (∑ i ∈ Finset.range y.length,
        (((eigvalsh (perturbedM W Ahalf v τ)).getD i 0 - y.getD i 0) /
          y.getD i 0) ^ 2) := by
    rw [loss_eq_ok eigvalsh W Ahalf v y τ hlen hk]
    congr 1
    rw [zipWith_sum_eq _ _ _ rfl, hSlen]
    apply Finset.sum_congr rfl
    intro i hi
    have hik : i < y.length := Finset.mem_range.mp hi
    rw [getD_zipWith _ _ _ i (by rw [hsublen]; exact hik)
        (by rw [List.length_map]; exact hik),
      getD_zipWith _ _ _ i (by rw [hcutlen]; exact hik) hik,
      getD_take _ _ _ hik, getD_map_inv _ _ hik]
    ring
  refine ⟨hmain, ?_⟩
  intro hEq
  rw [hmain]
  congr 1
  apply Finset.sum_eq_zero
  intro i hi
  rw [hEq i (Finset.mem_range.mp hi)]
  simp

/-- Witness for loss_formula with n = 1: zero base operator, v = 0,
τ = 2, so the perturbed operator is diag((tanh 0 + 1) * 2) = [[2]]; with
target y = [2] the truncated spectrum equals y and the loss is 0. -/
theorem loss_formula_w :
    loss (n := 1) (fun M => [M 0 0]) 0 0 (fun _ => 0) [2] 2 =
      Except.ok 0 :=
  (loss_formula (fun M => [M 0 0]) 0 0 (fun _ => 0) [2] 2
    (by simp [Matrix.IsSymm])
    rfl (le_refl 1) (by norm_num)).2
    (by
      intro i hi
      have hi0 : i = 0 := by
        simp only [List.length_cons, List.length_nil] at hi
        omega
      subst hi0
      norm_num [perturbedM, Matrix.add_apply, Real.tanh_zero,
        Matrix.diagonal])

/-- C8 counterexample: with a 1-dimensional operator (its eigensolver
output being the single eigenvalue 3) and a length-2 target [1, 2], no
error of any kind is raised: the eigenvalue slice clamps to one entry,
the residual broadcasts, and scoring completes with the value
(3-1)^2/1 + (3-2)^2/4 = 17/4 — there is no InputError anywhere in the
code. -/
theorem loss_no_input_error_cex :
    loss (n := 1) (fun _ => [3]) 0 0 (fun _ => 0) [1, 2] 0 =
      Except.ok (17 / 4) := by
  norm_num [loss, tfBroadcast2, tfDot, List.headI]

/-- C8 (amended): when the target spectrum is longer than the operator
dimension (k > n) no InputError is raised; instead the eigenvalue slice
silently clamps to n entries and then: for n = 1 the residual subtraction
broadcasts and scoring completes normally, while for n >= 2 the
subtraction fails with a TF shape error (which findOptimalV's bare except
clause swallows, so the caller never sees it). -/
theorem loss_dimension_mismatch {n : ℕ}
    (eigvalsh : Matrix (Fin n) (Fin n) ℝ → List ℝ)
    (W Ahalf : Matrix (Fin n) (Fin n) ℝ) (v : Fin n → ℝ) (y : List ℝ)
    (τ : ℝ) (hlen : (eigvalsh (perturbedM W Ahalf v τ)).length = n)
    (hk : n < y.length) :
    (n = 1 → ∃ r, loss eigvalsh W Ahalf v y τ = Except.ok r)
    ∧ (2 ≤ n → loss eigvalsh W Ahalf v y τ =
        Except.error TFError.shapeMismatch) := by
  have hcutlen :
      ((eigvalsh (perturbedM W Ahalf v τ)).take y.length).length = n := by
    rw [List.length_take, hlen]
    exact Nat.min_eq_right (Nat.le_of_lt hk)
  constructor
  · intro h1
    have e1 : tfBroadcast2 (fun a b => a - b)
        ((eigvalsh (perturbedM W Ahalf v τ)).take y.length) y =
        Except.ok (y.map (fun b =>
          ((eigvalsh (perturbedM W Ahalf v τ)).take y.length).headI - b)) := by
      unfold tfBroadcast2
      rw [if_neg (by omega), if_pos (by omega)]
    have e2 : tfBroadcast2 (fun a b => a * b)
        (y.map (fun b =>
          ((eigvalsh (perturbedM W Ahalf v τ)).take y.length).headI - b))
        (y.map fun t => 1 / t) =
        Except.ok (List.zipWith (fun a b => a * b)
          (y.map (fun b =>
            ((eigvalsh (perturbedM W Ahalf v τ)).take y.length).headI - b))
          (y.map fun t => 1 / t)) := by
      unfold tfBroadcast2
      rw [if_pos (by simp)]
    refine ⟨(List.zipWith (fun x y => x * y)
        (List.zipWith (fun a b => a * b)
          (y.map (fun b =>
            ((eigvalsh (perturbedM W Ahalf v τ)).take y.length).headI - b))
          (y.map fun t => 1 / t))
        (List.zipWith (fun a b => a * b)
          (y.map (fun b =>
            ((eigvalsh (perturbedM W Ahalf v τ)).take y.length).headI - b))
          (y.map fun t => 1 / t))).sum, ?_⟩
    simp only [loss, e1, e2, tfDot, if_pos rfl, if_true]
  · intro h2
    have e1 : tfBroadcast2 (fun a b => a - b)
        ((eigvalsh (perturbedM W Ahalf v τ)).take y.length) y =
        Except.error TFError.shapeMismatch := by
      unfold tfBroadcast2
      rw [if_neg (by omega), if_neg (by omega), if_neg (by omega)]
    simp only [loss, e1]

/-- Witness for loss_dimension_mismatch with n = 1 and the same concrete
instance as the counterexample: scoring proceeds silently. -/
theorem loss_dimension_mismatch_w :
    (1 : ℕ) < ([(1 : ℝ), 2]).length ∧
      ∃ r, loss (n := 1) (fun _ => [3]) 0 0 (fun _ => 0) [1, 2] 0 =
        Except.ok r :=
  ⟨by norm_num,
    (loss_dimension_mismatch (fun _ => [3]) 0 0 (fun _ => 0) [1, 2] 0
      rfl (by norm_num)).1 rfl⟩
